import Mathlib

/-!
Verification development for the `cargo-git-release` tool (src/src/lib.rs,
src/src/bin/cargo-git-release.rs).

The embedding works at the level of structured TOML/JSON values: a document
on disk is modelled as a `Toml` value (text serialization and reparsing of a
value is the identity at this level), the serde-derived structs `CargoToml`,
`CargoPackage`, `CargoWorkspace`, `WorkspacePackage`, `TauriConfig` are
modelled with their `#[serde(flatten)]` residues as explicit association
lists, and every external `git` invocation is recorded in an explicit trace
of `GitCmd` values whose observable outputs come from a `GitEnv`.
Character classes of the version regex are modelled over ASCII.
-/

namespace CargoGitRelease

/-- A structured TOML (or JSON) value; tables are ordered association lists. -/
inductive Toml where
  | str (s : String)
  | int (n : Int)
  | bool (b : Bool)
  | arr (xs : List Toml)
  | table (kvs : List (String × Toml))

/-- First value bound to key `k` in an association list. -/
def lookupKey (k : String) : List (String × Toml) → Option Toml
  | [] => none
  | kv :: rest => if kv.1 = k then some kv.2 else lookupKey k rest

/-- Replace the binding of `k` (or append it) in an association list. -/
def setKey (k : String) (v : Toml) : List (String × Toml) → List (String × Toml)
  | [] => [(k, v)]
  | kv :: rest => if kv.1 = k then (k, v) :: rest else kv :: setKey k v rest

/-- The `#[serde(flatten)]` residue: all entries whose key is not consumed
by a named struct field. -/
def removeKeys (ks : List String) (l : List (String × Toml)) : List (String × Toml) :=
  l.filter (fun kv => decide (kv.1 ∉ ks))

theorem lookupKey_eq_none_iff (k : String) (l : List (String × Toml)) :
    lookupKey k l = none ↔ ∀ kv ∈ l, kv.1 ≠ k := by
  induction l with
  | nil => simp [lookupKey]
  | cons kv rest ih =>
    by_cases h : kv.1 = k <;> simp [lookupKey, h, ih]

theorem lookupKey_append (k : String) (l₁ l₂ : List (String × Toml)) :
    lookupKey k (l₁ ++ l₂) =
      match lookupKey k l₁ with
      | some v => some v
      | none => lookupKey k l₂ := by
  induction l₁ with
  | nil => simp [lookupKey]
  | cons kv rest ih =>
    by_cases h : kv.1 = k <;> simp [lookupKey, h, ih]

theorem lookupKey_append_of_none (k : String) (l₁ l₂ : List (String × Toml))
    (h : lookupKey k l₁ = none) : lookupKey k (l₁ ++ l₂) = lookupKey k l₂ := by
  rw [lookupKey_append, h]

theorem removeKeys_append (ks : List String) (l₁ l₂ : List (String × Toml)) :
    removeKeys ks (l₁ ++ l₂) = removeKeys ks l₁ ++ removeKeys ks l₂ :=
  List.filter_append ..

theorem removeKeys_eq_self (ks : List String) (l : List (String × Toml))
    (h : ∀ kv ∈ l, kv.1 ∉ ks) : removeKeys ks l = l := by
  induction l with
  | nil => rfl
  | cons kv rest ih =>
    have h1 : kv.1 ∉ ks := h kv (by simp)
    simp only [removeKeys, List.filter_cons, decide_eq_true_eq]
    rw [if_pos h1]
    have := ih (fun x hx => h x (by simp [hx]))
    simpa [removeKeys] using this

theorem removeKeys_drop (ks : List String) (kv : String × Toml)
    (l : List (String × Toml)) (h : kv.1 ∈ ks) :
    removeKeys ks (kv :: l) = removeKeys ks l := by
  simp only [removeKeys, List.filter_cons, decide_eq_true_eq]
  rw [if_neg (by simp [h])]

theorem lookupKey_removeKeys_of_mem (k : String) (ks : List String)
    (l : List (String × Toml)) (h : k ∈ ks) :
    lookupKey k (removeKeys ks l) = none := by
  rw [lookupKey_eq_none_iff]
  intro kv hkv
  have := List.of_mem_filter hkv
  simp only [decide_eq_true_eq] at this
  intro hk
  exact this (hk ▸ h)

/-! ## The serde data model of `lib.rs` (structs `CargoToml`, `CargoPackage`,
`CargoWorkspace`, `WorkspacePackage`, `TauriConfig`). -/

/-- `struct CargoPackage { name, version, #[serde(flatten)] other }`. -/
structure CargoPackage where
  name : String
  version : String
  other : List (String × Toml)

/-- `struct WorkspacePackage { version: Option<String>, #[serde(flatten)] other }`. -/
structure WorkspacePackage where
  version : Option String
  other : List (String × Toml)

/-- `struct CargoWorkspace { members, package, #[serde(flatten)] other }`. -/
structure CargoWorkspace where
  members : Option (List String)
  package : Option WorkspacePackage
  other : List (String × Toml)

/-- `struct CargoToml { package, workspace, #[serde(flatten)] other }`. -/
structure CargoToml where
  package : Option CargoPackage
  workspace : Option CargoWorkspace
  other : List (String × Toml)

/-- `struct TauriConfig { #[serde(flatten)] other, version: String }`. -/
structure TauriConfig where
  other : List (String × Toml)
  version : String

def optEntry (k : String) : Option Toml → List (String × Toml)
  | some t => [(k, t)]
  | none => []

/-- Serialization (`toml::to_string` / `toml::to_string_pretty`) of the
structs, at the level of structured values: named fields in declaration
order, then the flattened residue. -/
def CargoPackage.toToml (p : CargoPackage) : Toml :=
  .table (("name", .str p.name) :: ("version", .str p.version) :: p.other)

def WorkspacePackage.toToml (w : WorkspacePackage) : Toml :=
  .table (optEntry "version" (w.version.map .str) ++ w.other)

def CargoWorkspace.toToml (w : CargoWorkspace) : Toml :=
  .table (optEntry "members" (w.members.map (fun ms => .arr (ms.map .str))) ++
          optEntry "package" (w.package.map WorkspacePackage.toToml) ++ w.other)

def CargoToml.toToml (c : CargoToml) : Toml :=
  .table (optEntry "package" (c.package.map CargoPackage.toToml) ++
          optEntry "workspace" (c.workspace.map CargoWorkspace.toToml) ++ c.other)

def TauriConfig.toToml (c : TauriConfig) : Toml :=
  .table (c.other ++ [("version", .str c.version)])

def Toml.asStr : Toml → Except String String
  | .str s => .ok s
  | _ => .error "expected string"

def Toml.asStrList : Toml → Except String (List String)
  | .arr xs => xs.mapM Toml.asStr
  | _ => .error "expected array of strings"

/-- Deserialize an optional named field (`Option<T>`). -/
def optField {α : Type} (kvs : List (String × Toml)) (k : String)
    (f : Toml → Except String α) : Except String (Option α) :=
  match lookupKey k kvs with
  | none => .ok none
  | some v => (f v).map some

/-- Deserialize a required named field. -/
def reqField {α : Type} (kvs : List (String × Toml)) (k : String)
    (f : Toml → Except String α) : Except String α :=
  match lookupKey k kvs with
  | none => .error ("missing field " ++ k)
  | some v => f v

/-- Deserialization (`toml::from_str`) of `CargoPackage`. -/
def CargoPackage.fromToml : Toml → Except String CargoPackage
  | .table kvs => do
    let name ← reqField kvs "name" Toml.asStr
    let version ← reqField kvs "version" Toml.asStr
    .ok ⟨name, version, removeKeys ["name", "version"] kvs⟩
  | _ => .error "expected table"

def WorkspacePackage.fromToml : Toml → Except String WorkspacePackage
  | .table kvs => do
    let version ← optField kvs "version" Toml.asStr
    .ok ⟨version, removeKeys ["version"] kvs⟩
  | _ => .error "expected table"

def CargoWorkspace.fromToml : Toml → Except String CargoWorkspace
  | .table kvs => do
    let members ← optField kvs "members" Toml.asStrList
    let pkg ← optField kvs "package" WorkspacePackage.fromToml
    .ok ⟨members, pkg, removeKeys ["members", "package"] kvs⟩
  | _ => .error "expected table"

def CargoToml.fromToml : Toml → Except String CargoToml
  | .table kvs => do
    let pkg ← optField kvs "package" CargoPackage.fromToml
    let ws ← optField kvs "workspace" CargoWorkspace.fromToml
    .ok ⟨pkg, ws, removeKeys ["package", "workspace"] kvs⟩
  | _ => .error "expected table"

def TauriConfig.fromToml : Toml → Except String TauriConfig
  | .table kvs => do
    let version ← reqField kvs "version" Toml.asStr
    .ok ⟨removeKeys ["version"] kvs, version⟩
  | _ => .error "expected table"

/-! ## Well-formedness: the invariant every successfully parsed struct has,
namely that the flatten residue holds no binding for a named field key. -/

def CargoPackage.WF (p : CargoPackage) : Prop :=
  lookupKey "name" p.other = none ∧ lookupKey "version" p.other = none

def WorkspacePackage.WF (w : WorkspacePackage) : Prop :=
  lookupKey "version" w.other = none

def CargoWorkspace.WF (w : CargoWorkspace) : Prop :=
  lookupKey "members" w.other = none ∧ lookupKey "package" w.other = none ∧
  (∀ wp, w.package = some wp → wp.WF)

def CargoToml.WF (c : CargoToml) : Prop :=
  lookupKey "package" c.other = none ∧ lookupKey "workspace" c.other = none ∧
  (∀ p, c.package = some p → p.WF) ∧ (∀ w, c.workspace = some w → w.WF)

/-! ## Version-format validation (`validate_version_format`).

The source regex is `^\d+\.\d+\.\d+(-[a-zA-Z0-9\.]+)?(\+[a-zA-Z0-9\.]+)?$`,
modelled over ASCII character classes. Because the suffix class excludes
the delimiters `-` and `+`, the regex is matched by a deterministic greedy
scanner; `matchVersionWith` is that scanner, parametrized by the class used
for the two optional suffix groups. -/

/-- The class `[a-zA-Z0-9\.]` of the source regex. -/
def suffixChar (c : Char) : Bool := c.isAlphanum || c = '.'

/-- The class `[\w.]`, i.e. `[A-Za-z0-9_.]`, used by the spec's pattern. -/
def wordDotChar (c : Char) : Bool := c.isAlphanum || c = '_' || c = '.'

/-- Consume one or more leading characters of class `p`; `none` if the first
character is not in the class. -/
def chomp1 (p : Char → Bool) : List Char → Option (List Char)
  | [] => none
  | c :: rest => if p c then some (rest.dropWhile p) else none

/-- The `(\+X+)?$` tail of the pattern, with suffix class `cls`. -/
def matchBuildPart (cls : Char → Bool) : List Char → Bool
  | [] => true
  | c :: l =>
    if c = '+' then
      match chomp1 cls l with
      | some r => r.isEmpty
      | none => false
    else false

/-- The `(-X+)?(\+X+)?$` tail of the pattern, with suffix class `cls`. -/
def matchPrePart (cls : Char → Bool) (m : List Char) : Bool :=
  match m with
  | c :: l =>
    if c = '-' then
      match chomp1 cls l with
      | some r => matchBuildPart cls r
      | none => false
    else matchBuildPart cls (c :: l)
  | [] => matchBuildPart cls []

/-- The `\d+(-X+)?(\+X+)?$` part after the second dot. -/
def matchPatchOnward (cls : Char → Bool) (l4 : List Char) : Bool :=
  match chomp1 Char.isDigit l4 with
  | none => false
  | some l5 => matchPrePart cls l5

/-- The `\d+\.\d+(-X+)?(\+X+)?$` part after the first dot. -/
def matchMinorOnward (cls : Char → Bool) (l2 : List Char) : Bool :=
  match chomp1 Char.isDigit l2 with
  | none => false
  | some l3 =>
    match l3 with
    | c2 :: l4 => if c2 = '.' then matchPatchOnward cls l4 else false
    | [] => false

/-- Anchored match of `\d+\.\d+\.\d+(-X+)?(\+X+)?` with suffix class `cls`. -/
def matchVersionWith (cls : Char → Bool) (l : List Char) : Bool :=
  match chomp1 Char.isDigit l with
  | none => false
  | some l1 =>
    match l1 with
    | c1 :: l2 => if c1 = '.' then matchMinorOnward cls l2 else false
    | [] => false

/-- `Regex::is_match` of the source's version regex. -/
def versionRegexMatches (s : String) : Bool := matchVersionWith suffixChar s.toList

/-- Modelled from the spec: the claim's pattern
`\d+\.\d+\.\d+(-[\w.]+)?(\+[\w.]+)?`, whose suffix class `[\w.]` also
contains the underscore. -/
def claimVersionMatches (s : String) : Bool := matchVersionWith wordDotChar s.toList

/-! ## `str::replace("{version}", ...)`: leftmost, non-overlapping
substitution of every occurrence. -/

/-- Substitute every occurrence of the placeholder, leftmost first,
non-overlapping, as Rust's `str::replace` does. The placeholder
`\x7bversion\x7d` is matched structurally. -/
def substAllAux (v : List Char) : List Char → List Char
  | '\x7b' :: 'v' :: 'e' :: 'r' :: 's' :: 'i' :: 'o' :: 'n' :: '\x7d' :: rest =>
      v ++ substAllAux v rest
  | c :: rest => c :: substAllAux v rest
  | [] => []

/-- Modelled from the spec: a single, first-match substitution of the
placeholder (what the claim describes), leaving any later occurrence
untouched. -/
def substOnceAux (v : List Char) : List Char → List Char
  | '\x7b' :: 'v' :: 'e' :: 'r' :: 's' :: 'i' :: 'o' :: 'n' :: '\x7d' :: rest =>
      v ++ rest
  | c :: rest => c :: substOnceAux v rest
  | [] => []

/-- Number of (leftmost, non-overlapping) placeholder occurrences. -/
def countPlaceholders : List Char → Nat
  | '\x7b' :: 'v' :: 'e' :: 'r' :: 's' :: 'i' :: 'o' :: 'n' :: '\x7d' :: rest =>
      countPlaceholders rest + 1
  | _ :: rest => countPlaceholders rest
  | [] => 0

/-! ## The tool: CLI arguments, the git environment, the command trace and
the pipeline of `ReleaseTool::run`. -/

/-- `struct Cli`: the parsed command-line arguments. -/
structure Cli where
  version : String
  rePublish : Bool
  force : Bool
  message : String
  tagPrefix : String
  dryRun : Bool
  exclude : List String
  only : List String

/-- One invocation of the `git` binary. -/
inductive GitCmd where
  | revParseInsideWorkTree
  | statusPorcelain
  | addAll
  | commit (msg : String)
  | tagList (name : String)
  | tagDelete (name : String)
  | tagCreate (name : String) (msg : String)
  | remoteList
  | pushHead (remote : String)
  | pushTags (remote : String)
  | pushDeleteTag (remote : String) (tag : String)
  deriving DecidableEq

/-- Whether a git invocation mutates version-control state (add, commit,
tag create/delete, push); the remaining commands are read-only queries. -/
def GitCmd.isMutation : GitCmd → Bool
  | .revParseInsideWorkTree => false
  | .statusPorcelain => false
  | .tagList _ => false
  | .remoteList => false
  | _ => true

/-- The observable behaviour of the external `git` binary: query outputs and
the per-command exit statuses. The source discards the exit status of
`commit`, `tag -d`, `tag -a`, `push` and `push --delete` (it calls
`.status()` and ignores or drops the result), so the `…Ok` fields exist to
quantify over failure patterns but are never read by the model. -/
structure GitEnv where
  insideWorkTree : Bool
  statusOutput : String
  tagListOutput : String → String
  remotes : List String
  pushHeadOk : String → Bool
  pushTagsOk : String → Bool
  pushDeleteOk : String → Bool

/-- The file system: structured documents keyed by normalized path. -/
abbrev FS := List (String × Toml)

/-- Strip a leading `./` (the walk of `WalkDir::new(".")` reports paths with
this prefix, while the root manifest is addressed as `Cargo.toml`). -/
def normPath (p : String) : String :=
  match p.toList with
  | '.' :: '/' :: rest => String.mk rest
  | _ => p

def FS.read (fs : FS) (p : String) : Option Toml := lookupKey (normPath p) fs

def FS.write (fs : FS) (p : String) (t : Toml) : FS := setKey (normPath p) t fs

/-- Mutable state of `ReleaseTool` plus the trace of git invocations. -/
structure ToolState where
  fs : FS
  updatedFiles : List String
  trace : List GitCmd

def ToolState.emit (st : ToolState) (c : GitCmd) : ToolState :=
  { st with trace := st.trace ++ [c] }

/-- The error taxonomy of the tool (each `anyhow!` site and the generic
I/O and parse failures). -/
inductive Err where
  | invalidVersionFormat
  | notARepository
  | dirtyWorkingTree
  | noManifestFound
  | tagAlreadyExists (tag : String)
  | parseFailure (msg : String)
  | ioError (path : String)
  deriving DecidableEq

/-- Outcome of a pipeline step: errors keep the state reached so far (the
tool performs no rollback). -/
inductive RunResult where
  | ok (st : ToolState)
  | err (e : Err) (st : ToolState)

/-- `validate_version_format`. -/
def validateVersionFormat (args : Cli) : Except Err Unit :=
  if versionRegexMatches args.version then .ok () else .error .invalidVersionFormat

/-- The `if !self.args.force { self.validate_version_format()?; }` gate at
the top of `run`. -/
def versionGate (args : Cli) : Except Err Unit :=
  if args.force then .ok () else validateVersionFormat args

/-- `check_git_repo`: `git rev-parse --is-inside-work-tree`. -/
def checkGitRepo (env : GitEnv) (st : ToolState) : RunResult :=
  let st := st.emit .revParseInsideWorkTree
  if env.insideWorkTree then .ok st else .err .notARepository st

/-- `is_working_tree_clean`: `git status --porcelain`, clean iff the output
is empty. -/
def isWorkingTreeClean (env : GitEnv) (st : ToolState) : ToolState × Bool :=
  (st.emit .statusPorcelain, env.statusOutput.isEmpty)

/-- `create_updated_cargo_toml`: serialize the parsed manifest, reparse it,
and set `package.version` on the copy. -/
def createUpdatedCargoToml (version : String) (cargo : CargoToml) : Except String CargoToml :=
  match CargoToml.fromToml cargo.toToml with
  | .error e => .error e
  | .ok updated =>
    .ok { updated with package := updated.package.map (fun p => { p with version := version }) }

/-- `update_single_crate`. -/
def updateSingleCrate (args : Cli) (path : String) (st : ToolState) : RunResult :=
  match st.fs.read path with
  | none => .err (.ioError path) st
  | some doc =>
    match CargoToml.fromToml doc with
    | .error e => .err (.parseFailure e) st
    | .ok cargo =>
      match cargo.package with
      | none => .ok st
      | some pkg =>
        if args.exclude ≠ [] ∧ pkg.name ∈ args.exclude then .ok st
        else if args.only ≠ [] ∧ pkg.name ∉ args.only then .ok st
        else
          match createUpdatedCargoToml args.version cargo with
          | .error e => .err (.parseFailure e) st
          | .ok c' =>
            .ok ⟨st.fs.write path c'.toToml, st.updatedFiles ++ [path], st.trace⟩

/-- `update_root_workspace_version`: rewrite `workspace.package.version` of
the root manifest when all three levels are present. -/
def updateRootWorkspaceVersion (args : Cli) (st : ToolState) : RunResult :=
  match st.fs.read "Cargo.toml" with
  | none => .err (.ioError "Cargo.toml") st
  | some doc =>
    match CargoToml.fromToml doc with
    | .error e => .err (.parseFailure e) st
    | .ok cargo =>
      match cargo.workspace with
      | none => .ok st
      | some ws =>
        match ws.package with
        | none => .ok st
        | some wsp =>
          match wsp.version with
          | none => .ok st
          | some _old =>
            let newWsp : WorkspacePackage := { wsp with version := some args.version }
            let newWs : CargoWorkspace := { ws with package := some newWsp }
            let newCargo : CargoToml := { cargo with workspace := some newWs }
            .ok ⟨st.fs.write "Cargo.toml" newCargo.toToml,
                 st.updatedFiles ++ ["Cargo.toml"], st.trace⟩

/-- The file name: the component after the last `/`. -/
def fileNameOf (p : String) : String :=
  String.mk ((p.toList.reverse.takeWhile (fun c => c != '/')).reverse)

/-- `find_all_cargo_toml`: the recursive walk from `.` (which reports each
file as `./<path>`), keeping files named `Cargo.toml`. -/
def findAllCargoToml (fs : FS) : List String :=
  (fs.map (fun kv => "./" ++ kv.1)).filter (fun p => decide (fileNameOf p = "Cargo.toml"))

/-- The loop of `update_workspace_versions` over the discovered manifests. -/
def updateCrates (args : Cli) (paths : List String) (st : ToolState) : RunResult :=
  match paths with
  | [] => .ok st
  | p :: rest =>
    match updateSingleCrate args p st with
    | .err e st => .err e st
    | .ok st => updateCrates args rest st

/-- `update_workspace_versions`. -/
def updateWorkspaceVersions (args : Cli) (st : ToolState) : RunResult :=
  match updateRootWorkspaceVersion args st with
  | .err e st => .err e st
  | .ok st => updateCrates args (findAllCargoToml st.fs) st

/-- One candidate location of `update_tauri_config`: `none` when the file
does not exist, otherwise the outcome of rewriting it. -/
def updateTauriAt (args : Cli) (path : String) (st : ToolState) : Option RunResult :=
  match st.fs.read path with
  | none => none
  | some doc =>
    some (match TauriConfig.fromToml doc with
      | .error e => .err (.parseFailure e) st
      | .ok cfg =>
        let cfg' := { cfg with version := args.version }
        .ok ⟨st.fs.write path cfg'.toToml, st.updatedFiles ++ [path], st.trace⟩)

/-- `update_tauri_config`: first existing candidate wins; absence of both is
not an error. -/
def updateTauriConfig (args : Cli) (st : ToolState) : RunResult :=
  match updateTauriAt args "tauri.conf.json" st with
  | some r => r
  | none =>
    match updateTauriAt args "src-tauri/tauri.conf.json" st with
    | some r => r
    | none => .ok st

/-- `update_versions`. -/
def updateVersions (args : Cli) (st : ToolState) : RunResult :=
  match st.fs.read "Cargo.toml" with
  | none => .err .noManifestFound st
  | some doc =>
    match CargoToml.fromToml doc with
    | .error e => .err (.parseFailure e) st
    | .ok cargo =>
      let step :=
        if cargo.workspace.isSome then updateWorkspaceVersions args st
        else updateSingleCrate args "Cargo.toml" st
      match step with
      | .err e st => .err e st
      | .ok st => updateTauriConfig args st

/-- The commit message: the template with the placeholder substituted by
`str::replace` (every leftmost, non-overlapping occurrence). -/
def commitMessage (args : Cli) : String :=
  String.mk (substAllAux args.version.toList args.message.toList)

/-- `commit_changes`: `git add -A` then `git commit -m <message>`. -/
def commitChanges (args : Cli) (st : ToolState) : ToolState :=
  (st.emit .addAll).emit (.commit (commitMessage args))

/-- `delete_remote_tags`: list remotes, then `git push <remote> --delete
<tag>` for each; each exit status is dropped (`let _ = …`). -/
def deleteRemoteTags (env : GitEnv) (tagName : String) (st : ToolState) : ToolState :=
  (env.remotes).foldl (fun s r => s.emit (.pushDeleteTag r tagName)) (st.emit .remoteList)

/-- `handle_tag`. -/
def handleTag (args : Cli) (env : GitEnv) (st : ToolState) : RunResult :=
  let tagName := args.tagPrefix ++ args.version
  let st := st.emit (.tagList tagName)
  if (env.tagListOutput tagName).isEmpty = false then
    if args.rePublish then
      let st := st.emit (.tagDelete tagName)
      let st := deleteRemoteTags env tagName st
      .ok (st.emit (.tagCreate tagName ("Version " ++ args.version)))
    else .err (.tagAlreadyExists tagName) st
  else .ok (st.emit (.tagCreate tagName ("Version " ++ args.version)))

/-- `push_to_remotes`: for every remote, push `HEAD` then push `--tags`;
the exit statuses are not inspected, so this step cannot fail. -/
def pushToRemotes (env : GitEnv) (st : ToolState) : ToolState :=
  (env.remotes).foldl (fun s r => (s.emit (.pushHead r)).emit (.pushTags r))
    (st.emit .remoteList)

/-- `ReleaseTool::run`. -/
def run (args : Cli) (env : GitEnv) (fs : FS) : RunResult :=
  let st0 : ToolState := ⟨fs, [], []⟩
  match versionGate args with
  | .error e => .err e st0
  | .ok _ =>
    match checkGitRepo env st0 with
    | .err e st => .err e st
    | .ok st =>
      let pr := isWorkingTreeClean env st
      if pr.2 then
        match updateVersions args pr.1 with
        | .err e st => .err e st
        | .ok st =>
          if args.dryRun then .ok st
          else
            let st := commitChanges args st
            match handleTag args env st with
            | .err e st => .err e st
            | .ok st => .ok (pushToRemotes env st)
      else .err .dirtyWorkingTree pr.1

/-- `main` of `cargo-git-release.rs`: exit code 0 on success, 1 on error. -/
def mainExitCode (args : Cli) (env : GitEnv) (fs : FS) : Nat :=
  match run args env fs with
  | .ok _ => 0
  | .err _ _ => 1

/-- The state reached by a pipeline step, whether it succeeded or failed. -/
def RunResult.state : RunResult → ToolState
  | .ok st => st
  | .err _ st => st

/-- The git-command trace reached by a full run. -/
def RunResult.finalTrace (r : RunResult) : List GitCmd := r.state.trace

/-- Path lookup through nested tables of a document. -/
def Toml.lookupPath : Toml → List String → Option Toml
  | t, [] => some t
  | .table kvs, k :: ks =>
    match lookupKey k kvs with
    | some v => Toml.lookupPath v ks
    | none => none
  | _, _ :: _ => none

/-- Modelled from the spec: the declarative reading of the pattern
`\d+\.\d+\.\d+(-X+)?(\+X+)?` with suffix class `cls` — an optional group is
empty or its marker followed by a nonempty run of class characters. -/
def OptGroup (mark : Char) (cls : Char → Bool) (g : List Char) : Prop :=
  g = [] ∨ ∃ b, g = mark :: b ∧ b ≠ [] ∧ ∀ c ∈ b, cls c = true

/-- Modelled from the spec: a nonempty run of ASCII digits. -/
def DigitRun (a : List Char) : Prop := a ≠ [] ∧ ∀ c ∈ a, c.isDigit = true

/-- Modelled from the spec: the whole anchored pattern, as a decomposition
of the character list. -/
def MatchesPattern (cls : Char → Bool) (l : List Char) : Prop :=
  ∃ a b c pre bu,
    l = a ++ '.' :: (b ++ '.' :: (c ++ (pre ++ bu))) ∧
    DigitRun a ∧ DigitRun b ∧ DigitRun c ∧
    OptGroup '-' cls pre ∧ OptGroup '+' cls bu

/-- The value-level effect of `create_updated_cargo_toml`: set
`package.version` (when a package section exists), touch nothing else. -/
def setPkgVersion (v : String) (c : CargoToml) : CargoToml :=
  { c with package := c.package.map (fun p => { p with version := v }) }

/-! ## Concrete fixtures used by witnesses and counterexamples. -/

/-- A plain single-package manifest with unrecognized fields. -/
def demoPkgDoc : Toml :=
  .table [("package", .table [("name", .str "demo"), ("version", .str "0.1.0"),
            ("edition", .str "2021")]),
          ("dependencies", .table [("serde", .str "1")])]

/-- A workspace root manifest that declares both a shared
`workspace.package.version` and its own `package` section. -/
def demoWsDoc : Toml :=
  .table [("workspace", .table [("members", .arr [.str "a"]),
            ("package", .table [("version", .str "0.1.0")])]),
          ("package", .table [("name", .str "root"), ("version", .str "0.1.0")])]

/-- Default-ish CLI arguments: version `1.2.3`, no flags, no filters. -/
def demoCli : Cli := ⟨"1.2.3", false, false, "Release", "v", false, [], []⟩

/-- A clean repository with one remote where every command succeeds. -/
def cleanEnv : GitEnv :=
  ⟨true, "", fun _ => "", ["origin"], fun _ => true, fun _ => true, fun _ => true⟩

/-! # Theorems -/

/-! ## Round-trip: serializing a well-formed struct and parsing it back is
the identity, and parsing always produces a well-formed struct. -/

theorem asStrList_map_str (ms : List String) :
    Toml.asStrList (.arr (ms.map .str)) = .ok ms := by
  induction ms with
  | nil => rfl
  | cons m rest ih =>
    simp only [Toml.asStrList, List.map_cons, List.mapM_cons] at *
    simp only [Toml.asStr, bind, Except.bind] at *
    cases h : (rest.map Toml.str).mapM Toml.asStr with
    | error e => rw [h] at ih; simp at ih
    | ok v =>
      rw [h] at ih
      simp only [pure, Except.pure] at ih ⊢
      cases ih
      rfl

theorem cargoPackage_fromToml_toToml (p : CargoPackage) (h : p.WF) :
    CargoPackage.fromToml p.toToml = .ok p := by
  obtain ⟨nm, ver, oth⟩ := p
  obtain ⟨h1, h2⟩ := h
  have hk1 := (lookupKey_eq_none_iff "name" oth).mp h1
  have hk2 := (lookupKey_eq_none_iff "version" oth).mp h2
  have e1 : removeKeys ["name", "version"]
      (("name", Toml.str nm) :: ("version", Toml.str ver) :: oth) = oth := by
    rw [removeKeys_drop _ _ _ (by simp), removeKeys_drop _ _ _ (by simp)]
    exact removeKeys_eq_self _ _ (fun kv hkv => by simp [hk1 kv hkv, hk2 kv hkv])
  simp [CargoPackage.toToml, CargoPackage.fromToml, reqField, lookupKey, e1,
    Toml.asStr, bind, Except.bind, pure, Except.pure]

theorem workspacePackage_fromToml_toToml (w : WorkspacePackage) (h : w.WF) :
    WorkspacePackage.fromToml w.toToml = .ok w := by
  obtain ⟨ver, oth⟩ := w
  have h' : lookupKey "version" oth = none := h
  have hk := (lookupKey_eq_none_iff "version" oth).mp h'
  have hrm : removeKeys ["version"] oth = oth :=
    removeKeys_eq_self _ _ (fun kv hkv => by simp [hk kv hkv])
  cases ver with
  | none =>
    simp [WorkspacePackage.toToml, optEntry, WorkspacePackage.fromToml, optField, h',
      hrm, bind, Except.bind, pure, Except.pure]
  | some v =>
    have e1 : removeKeys ["version"] (("version", Toml.str v) :: oth) = oth := by
      rw [removeKeys_drop _ _ _ (by simp)]; exact hrm
    simp [WorkspacePackage.toToml, optEntry, WorkspacePackage.fromToml, optField, lookupKey,
      e1, Toml.asStr, bind, Except.bind, pure, Except.pure, Except.map]

theorem cargoWorkspace_fromToml_toToml (w : CargoWorkspace) (h : w.WF) :
    CargoWorkspace.fromToml w.toToml = .ok w := by
  obtain ⟨mem, pk, oth⟩ := w
  obtain ⟨h1, h2, h3⟩ := h
  have hk1 := (lookupKey_eq_none_iff "members" oth).mp h1
  have hk2 := (lookupKey_eq_none_iff "package" oth).mp h2
  have hrm : removeKeys ["members", "package"] oth = oth :=
    removeKeys_eq_self _ _ (fun kv hkv => by simp [hk1 kv hkv, hk2 kv hkv])
  cases mem with
  | none =>
    cases pk with
    | none =>
      simp [CargoWorkspace.toToml, optEntry, CargoWorkspace.fromToml, optField, h1, h2,
        hrm, bind, Except.bind, pure, Except.pure]
    | some wp =>
      have hwp := workspacePackage_fromToml_toToml wp (h3 wp rfl)
      have e1 : removeKeys ["members", "package"] (("package", wp.toToml) :: oth) = oth := by
        rw [removeKeys_drop _ _ _ (by simp)]; exact hrm
      simp [CargoWorkspace.toToml, optEntry, CargoWorkspace.fromToml, optField, lookupKey,
        h1, h2, hwp, e1, bind, Except.bind, pure, Except.pure, Except.map]
  | some ms =>
    have hms := asStrList_map_str ms
    cases pk with
    | none =>
      have e1 : removeKeys ["members", "package"]
          (("members", Toml.arr (ms.map Toml.str)) :: oth) = oth := by
        rw [removeKeys_drop _ _ _ (by simp)]; exact hrm
      simp [CargoWorkspace.toToml, optEntry, CargoWorkspace.fromToml, optField, lookupKey,
        h1, h2, hms, e1, bind, Except.bind, pure, Except.pure, Except.map]
    | some wp =>
      have hwp := workspacePackage_fromToml_toToml wp (h3 wp rfl)
      have e1 : removeKeys ["members", "package"]
          (("members", Toml.arr (ms.map Toml.str)) :: ("package", wp.toToml) :: oth) = oth := by
        rw [removeKeys_drop _ _ _ (by simp), removeKeys_drop _ _ _ (by simp)]; exact hrm
      simp [CargoWorkspace.toToml, optEntry, CargoWorkspace.fromToml, optField, lookupKey,
        h1, h2, hms, hwp, e1, bind, Except.bind, pure, Except.pure, Except.map]

theorem cargoToml_fromToml_toToml (c : CargoToml) (h : c.WF) :
    CargoToml.fromToml c.toToml = .ok c := by
  obtain ⟨pk, ws, oth⟩ := c
  obtain ⟨h1, h2, h3, h4⟩ := h
  have hk1 := (lookupKey_eq_none_iff "package" oth).mp h1
  have hk2 := (lookupKey_eq_none_iff "workspace" oth).mp h2
  have hrm : removeKeys ["package", "workspace"] oth = oth :=
    removeKeys_eq_self _ _ (fun kv hkv => by simp [hk1 kv hkv, hk2 kv hkv])
  cases pk with
  | none =>
    cases ws with
    | none =>
      simp [CargoToml.toToml, optEntry, CargoToml.fromToml, optField, h1, h2,
        hrm, bind, Except.bind, pure, Except.pure]
    | some w =>
      have hw := cargoWorkspace_fromToml_toToml w (h4 w rfl)
      have e1 : removeKeys ["package", "workspace"] (("workspace", w.toToml) :: oth) = oth := by
        rw [removeKeys_drop _ _ _ (by simp)]; exact hrm
      simp [CargoToml.toToml, optEntry, CargoToml.fromToml, optField, lookupKey,
        h1, h2, hw, e1, bind, Except.bind, pure, Except.pure, Except.map]
  | some p =>
    have hp := cargoPackage_fromToml_toToml p (h3 p rfl)
    cases ws with
    | none =>
      have e1 : removeKeys ["package", "workspace"] (("package", p.toToml) :: oth) = oth := by
        rw [removeKeys_drop _ _ _ (by simp)]; exact hrm
      simp [CargoToml.toToml, optEntry, CargoToml.fromToml, optField, lookupKey,
        h1, h2, hp, e1, bind, Except.bind, pure, Except.pure, Except.map]
    | some w =>
      have hw := cargoWorkspace_fromToml_toToml w (h4 w rfl)
      have e1 : removeKeys ["package", "workspace"]
          (("package", p.toToml) :: ("workspace", w.toToml) :: oth) = oth := by
        rw [removeKeys_drop _ _ _ (by simp), removeKeys_drop _ _ _ (by simp)]; exact hrm
      simp [CargoToml.toToml, optEntry, CargoToml.fromToml, optField, lookupKey,
        h1, h2, hp, hw, e1, bind, Except.bind, pure, Except.pure, Except.map]

theorem optField_ok {α : Type} {kvs : List (String × Toml)} {k : String}
    {f : Toml → Except String α} {r : Option α} (h : optField kvs k f = .ok r) :
    r = none ∨ ∃ t a, lookupKey k kvs = some t ∧ f t = .ok a ∧ r = some a := by
  unfold optField at h
  cases hl : lookupKey k kvs with
  | none => rw [hl] at h; cases h; exact Or.inl rfl
  | some v =>
    rw [hl] at h
    have h' : Except.map some (f v) = Except.ok r := h
    cases hf : f v with
    | error e => rw [hf] at h'; cases h'
    | ok a =>
      rw [hf] at h'
      have h'' : Except.ok (some a) = Except.ok r := h'
      cases h''
      exact Or.inr ⟨v, a, rfl, hf, rfl⟩

theorem cargoPackage_fromToml_wf (t : Toml) (p : CargoPackage)
    (h : CargoPackage.fromToml t = .ok p) : p.WF := by
  cases t with
  | table kvs =>
    simp only [CargoPackage.fromToml, bind, Except.bind] at h
    cases h1 : reqField kvs "name" Toml.asStr with
    | error e => rw [h1] at h; cases h
    | ok nm =>
      rw [h1] at h
      cases h2 : reqField kvs "version" Toml.asStr with
      | error e => rw [h2] at h; cases h
      | ok ver =>
        rw [h2] at h
        cases h
        exact ⟨lookupKey_removeKeys_of_mem _ _ _ (by simp),
               lookupKey_removeKeys_of_mem _ _ _ (by simp)⟩
  | str s => cases h
  | int n => cases h
  | bool b => cases h
  | arr xs => cases h

theorem workspacePackage_fromToml_wf (t : Toml) (w : WorkspacePackage)
    (h : WorkspacePackage.fromToml t = .ok w) : w.WF := by
  cases t with
  | table kvs =>
    simp only [WorkspacePackage.fromToml, bind, Except.bind] at h
    cases h1 : optField kvs "version" Toml.asStr with
    | error e => rw [h1] at h; cases h
    | ok ver =>
      rw [h1] at h
      cases h
      exact lookupKey_removeKeys_of_mem _ _ _ (by simp)
  | str s => cases h
  | int n => cases h
  | bool b => cases h
  | arr xs => cases h

theorem cargoWorkspace_fromToml_wf (t : Toml) (w : CargoWorkspace)
    (h : CargoWorkspace.fromToml t = .ok w) : w.WF := by
  cases t with
  | table kvs =>
    simp only [CargoWorkspace.fromToml, bind, Except.bind] at h
    cases h1 : optField kvs "members" Toml.asStrList with
    | error e => rw [h1] at h; cases h
    | ok mem =>
      rw [h1] at h
      cases h2 : optField kvs "package" WorkspacePackage.fromToml with
      | error e => rw [h2] at h; cases h
      | ok pk =>
        rw [h2] at h
        cases h
        refine ⟨lookupKey_removeKeys_of_mem _ _ _ (by simp),
                lookupKey_removeKeys_of_mem _ _ _ (by simp), ?_⟩
        intro wp hwp
        have hwp' : pk = some wp := hwp
        rcases optField_ok h2 with hnone | ⟨tv, a, _, hfa, heq⟩
        · rw [hwp'] at hnone; cases hnone
        · rw [hwp'] at heq
          cases heq
          exact workspacePackage_fromToml_wf tv wp hfa
  | str s => cases h
  | int n => cases h
  | bool b => cases h
  | arr xs => cases h

theorem cargoToml_fromToml_wf (t : Toml) (c : CargoToml)
    (h : CargoToml.fromToml t = .ok c) : c.WF := by
  cases t with
  | table kvs =>
    simp only [CargoToml.fromToml, bind, Except.bind] at h
    cases h1 : optField kvs "package" CargoPackage.fromToml with
    | error e => rw [h1] at h; cases h
    | ok pk =>
      rw [h1] at h
      cases h2 : optField kvs "workspace" CargoWorkspace.fromToml with
      | error e => rw [h2] at h; cases h
      | ok ws =>
        rw [h2] at h
        cases h
        refine ⟨lookupKey_removeKeys_of_mem _ _ _ (by simp),
                lookupKey_removeKeys_of_mem _ _ _ (by simp), ?_, ?_⟩
        · intro p hp
          have hp' : pk = some p := hp
          rcases optField_ok h1 with hnone | ⟨tv, a, _, hfa, heq⟩
          · rw [hp'] at hnone; cases hnone
          · rw [hp'] at heq
            cases heq
            exact cargoPackage_fromToml_wf tv p hfa
        · intro w hw
          have hw' : ws = some w := hw
          rcases optField_ok h2 with hnone | ⟨tv, a, _, hfa, heq⟩
          · rw [hw'] at hnone; cases hnone
          · rw [hw'] at heq
            cases heq
            exact cargoWorkspace_fromToml_wf tv w hfa
  | str s => cases h
  | int n => cases h
  | bool b => cases h
  | arr xs => cases h

/-! ## Shared lemmas about the pipeline steps. -/

theorem createUpdatedCargoToml_eq (v : String) (cargo : CargoToml) (h : cargo.WF) :
    createUpdatedCargoToml v cargo =
      .ok { cargo with package := cargo.package.map (fun p => { p with version := v }) } := by
  unfold createUpdatedCargoToml
  rw [cargoToml_fromToml_toToml cargo h]

theorem foldl_emit_map {α : Type} (f : α → GitCmd) (l : List α) (st : ToolState) :
    l.foldl (fun s r => s.emit (f r)) st =
      ⟨st.fs, st.updatedFiles, st.trace ++ l.map f⟩ := by
  induction l generalizing st with
  | nil => simp
  | cons a l ih =>
    rw [List.foldl_cons, ih]
    simp [ToolState.emit]

theorem foldl_emit2_map {α : Type} (f g : α → GitCmd) (l : List α) (st : ToolState) :
    l.foldl (fun s r => (s.emit (f r)).emit (g r)) st =
      ⟨st.fs, st.updatedFiles, st.trace ++ (l.map (fun r => [f r, g r])).flatten⟩ := by
  induction l generalizing st with
  | nil => simp
  | cons a l ih =>
    rw [List.foldl_cons, ih]
    simp [ToolState.emit]

theorem deleteRemoteTags_eq (env : GitEnv) (tagName : String) (st : ToolState) :
    deleteRemoteTags env tagName st =
      ⟨st.fs, st.updatedFiles,
       st.trace ++ GitCmd.remoteList :: env.remotes.map (fun r => .pushDeleteTag r tagName)⟩ := by
  unfold deleteRemoteTags
  rw [foldl_emit_map]
  simp [ToolState.emit]

theorem pushToRemotes_eq (env : GitEnv) (st : ToolState) :
    pushToRemotes env st =
      ⟨st.fs, st.updatedFiles,
       st.trace ++ GitCmd.remoteList ::
         (env.remotes.map (fun r => [GitCmd.pushHead r, GitCmd.pushTags r])).flatten⟩ := by
  unfold pushToRemotes
  rw [foldl_emit2_map]
  simp [ToolState.emit]

/-! ## C2 -/

/-- C2: `update_single_crate` on a parsed manifest: no `package` section
means skip without error and without state change; a nonempty exclude-list
containing the name means skip; a nonempty only-list missing the name means
skip; otherwise `package.version` is set to the requested version, the
document is rewritten, and the path is appended to the updated-files log. -/
theorem c2_update_single_crate_cases (args : Cli) (path : String) (st : ToolState)
    (doc : Toml) (cargo : CargoToml)
    (hread : st.fs.read path = some doc)
    (hparse : CargoToml.fromToml doc = .ok cargo) :
    (cargo.package = none → updateSingleCrate args path st = .ok st) ∧
    (∀ pkg, cargo.package = some pkg →
      args.exclude ≠ [] ∧ pkg.name ∈ args.exclude →
      updateSingleCrate args path st = .ok st) ∧
    (∀ pkg, cargo.package = some pkg →
      ¬(args.exclude ≠ [] ∧ pkg.name ∈ args.exclude) →
      args.only ≠ [] ∧ pkg.name ∉ args.only →
      updateSingleCrate args path st = .ok st) ∧
    (∀ pkg, cargo.package = some pkg →
      ¬(args.exclude ≠ [] ∧ pkg.name ∈ args.exclude) →
      ¬(args.only ≠ [] ∧ pkg.name ∉ args.only) →
      updateSingleCrate args path st =
        .ok ⟨st.fs.write path
               (CargoToml.toToml ⟨some ⟨pkg.name, args.version, pkg.other⟩,
                                  cargo.workspace, cargo.other⟩),
             st.updatedFiles ++ [path], st.trace⟩) := by
  have hwf : cargo.WF := cargoToml_fromToml_wf doc cargo hparse
  refine ⟨?_, ?_, ?_, ?_⟩
  · intro hpkg
    simp only [updateSingleCrate, hread, hparse, hpkg]
  · intro pkg hpkg hex
    simp only [updateSingleCrate, hread, hparse, hpkg]
    rw [if_pos hex]
  · intro pkg hpkg hex honly
    simp only [updateSingleCrate, hread, hparse, hpkg]
    rw [if_neg hex, if_pos honly]
  · intro pkg hpkg hex honly
    simp only [updateSingleCrate, hread, hparse, hpkg]
    rw [if_neg hex, if_neg honly,
        createUpdatedCargoToml_eq args.version cargo hwf]
    simp only [hpkg, Option.map_some']

/-- Parsed form of `demoPkgDoc`. -/
def demoPkgCargo : CargoToml :=
  ⟨some ⟨"demo", "0.1.0", [("edition", .str "2021")]⟩, none,
   [("dependencies", .table [("serde", .str "1")])]⟩

/-- CLI arguments that exclude the crate `demo`. -/
def c2Cli : Cli := { demoCli with exclude := ["demo"] }

theorem c2_witness :
    updateSingleCrate c2Cli "Cargo.toml" ⟨[("Cargo.toml", demoPkgDoc)], [], []⟩ =
      .ok ⟨[("Cargo.toml", demoPkgDoc)], [], []⟩ :=
  (c2_update_single_crate_cases c2Cli "Cargo.toml" ⟨[("Cargo.toml", demoPkgDoc)], [], []⟩
      demoPkgDoc demoPkgCargo (by rfl) (by rfl)).2.1
    ⟨"demo", "0.1.0", [("edition", .str "2021")]⟩ rfl ⟨by decide, by decide⟩

/-! ## C5 -/

/-- C5: when the tag `prefix + version` already exists and `re_publish` is
false, `handle_tag` fails with `TagAlreadyExists`, the only git command it
issued is the read-only `git tag -l` query, and the state (file system,
updated-files log) is unchanged: no tag deletion, no remote tag deletion, no
tag creation. -/
theorem c5_tag_exists_fails_without_republish (args : Cli) (env : GitEnv) (st : ToolState)
    (hex : (env.tagListOutput (args.tagPrefix ++ args.version)).isEmpty = false)
    (hrp : args.rePublish = false) :
    handleTag args env st =
      .err (.tagAlreadyExists (args.tagPrefix ++ args.version))
        ⟨st.fs, st.updatedFiles,
         st.trace ++ [.tagList (args.tagPrefix ++ args.version)]⟩ ∧
    (∀ c ∈ [GitCmd.tagList (args.tagPrefix ++ args.version)], c.isMutation = false) := by
  constructor
  · simp only [handleTag, hex, hrp]
    rfl
  · intro c hc
    rw [List.mem_singleton] at hc
    rw [hc]
    rfl

/-- A git environment in which the tag `v1.2.3` already exists. -/
def tagEnv : GitEnv := { cleanEnv with tagListOutput := fun _ => "v1.2.3" }

theorem c5_witness :
    handleTag demoCli tagEnv ⟨[], [], []⟩ =
      .err (.tagAlreadyExists "v1.2.3") ⟨[], [], [.tagList "v1.2.3"]⟩ :=
  (c5_tag_exists_fails_without_republish demoCli tagEnv ⟨[], [], []⟩ rfl rfl).1

/-! ## C6 -/

/-- C6: when the tag already exists and `re_publish` is true, `handle_tag`
deletes the local tag, then issues a remote tag deletion for every
configured remote — regardless of each deletion's exit status, which the
source drops, so no per-remote failure aborts the run — and finally creates
a new annotated tag of the same name; the step succeeds for every
environment. -/
theorem c6_republish_deletes_and_recreates (args : Cli) (env : GitEnv) (st : ToolState)
    (hex : (env.tagListOutput (args.tagPrefix ++ args.version)).isEmpty = false)
    (hrp : args.rePublish = true) :
    handleTag args env st =
      .ok ⟨st.fs, st.updatedFiles,
        st.trace ++
          [.tagList (args.tagPrefix ++ args.version),
           .tagDelete (args.tagPrefix ++ args.version), .remoteList] ++
          env.remotes.map (fun r => .pushDeleteTag r (args.tagPrefix ++ args.version)) ++
          [.tagCreate (args.tagPrefix ++ args.version) ("Version " ++ args.version)]⟩ := by
  simp only [handleTag, hex, hrp]
  rw [deleteRemoteTags_eq]
  simp [ToolState.emit]

/-- CLI arguments with the republish flag set. -/
def c6Cli : Cli := { demoCli with rePublish := true }

/-- Two remotes where remote tag deletion fails on `backup`. -/
def c6Env : GitEnv :=
  { cleanEnv with tagListOutput := fun _ => "v1.2.3",
                  remotes := ["origin", "backup"],
                  pushDeleteOk := fun r => r == "origin" }

theorem c6_witness :
    c6Env.pushDeleteOk "backup" = false ∧
    handleTag c6Cli c6Env ⟨[], [], []⟩ =
      .ok ⟨[], [],
        [.tagList "v1.2.3", .tagDelete "v1.2.3", .remoteList,
         .pushDeleteTag "origin" "v1.2.3", .pushDeleteTag "backup" "v1.2.3",
         .tagCreate "v1.2.3" "Version 1.2.3"]⟩ :=
  ⟨rfl, c6_republish_deletes_and_recreates c6Cli c6Env ⟨[], [], []⟩ rfl rfl⟩

/-! ## C7 -/

/-- Two remotes where pushing `HEAD` to `origin` fails. -/
def c7Env : GitEnv :=
  { cleanEnv with remotes := ["origin", "backup"], pushHeadOk := fun r => r == "backup" }

/-- C7 (code bug): a failed push does not fail the run. Here pushing to
`origin` fails, the push to `backup` is still attempted (that half of the
claim holds), but the process exits 0 and `run` reports success — the
source never inspects the exit status of `git push`, so the claimed
"overall run is reported as failed if any push fails" does not hold. -/
theorem c7_push_failure_not_reported :
    c7Env.pushHeadOk "origin" = false ∧
    GitCmd.pushHead "origin" ∈ (run demoCli c7Env [("Cargo.toml", demoPkgDoc)]).finalTrace ∧
    GitCmd.pushHead "backup" ∈ (run demoCli c7Env [("Cargo.toml", demoPkgDoc)]).finalTrace ∧
    mainExitCode demoCli c7Env [("Cargo.toml", demoPkgDoc)] = 0 := by
  refine ⟨rfl, by decide, by decide, by rfl⟩

/-! ## C8 -/

theorem substAllAux_no_placeholder (v l : List Char) (h : countPlaceholders l = 0) :
    substAllAux v l = l := by
  induction l using countPlaceholders.induct with
  | case1 rest ih => rw [countPlaceholders.eq_1] at h; omega
  | case2 c rest hne ih =>
    rw [countPlaceholders.eq_2 c rest hne] at h
    rw [substAllAux.eq_2 v c rest hne, ih h]
  | case3 => rfl

theorem substAllAux_eq_substOnceAux (v l : List Char) (h : countPlaceholders l ≤ 1) :
    substAllAux v l = substOnceAux v l := by
  induction l using countPlaceholders.induct with
  | case1 rest ih =>
    rw [countPlaceholders.eq_1] at h
    have h0 : countPlaceholders rest = 0 := by omega
    rw [substAllAux.eq_1, substOnceAux.eq_1, substAllAux_no_placeholder v rest h0]
  | case2 c rest hne ih =>
    rw [countPlaceholders.eq_2 c rest hne] at h
    rw [substAllAux.eq_2 v c rest hne, substOnceAux.eq_2 v c rest hne, ih h]
  | case3 => rfl

/-- A commit-message template holding the placeholder twice. -/
def c8Template : String :=
  String.mk ['\x7b', 'v', 'e', 'r', 's', 'i', 'o', 'n', '\x7d', ' ',
             '\x7b', 'v', 'e', 'r', 's', 'i', 'o', 'n', '\x7d']

def c8Cli : Cli := { demoCli with message := c8Template }

/-- C8 (counterexample): `str::replace` substitutes every occurrence of the
placeholder, not a single first match: on a template holding the placeholder
twice, the commit message is `1.2.3 1.2.3`, while the single, first-match
substitution described by the claim would leave the second placeholder
intact — the two disagree. -/
theorem c8_counterexample :
    commitChanges c8Cli ⟨[], [], []⟩ = ⟨[], [], [.addAll, .commit "1.2.3 1.2.3"]⟩ ∧
    String.mk (substOnceAux c8Cli.version.toList c8Cli.message.toList) =
      String.mk ['1', '.', '2', '.', '3', ' ',
                 '\x7b', 'v', 'e', 'r', 's', 'i', 'o', 'n', '\x7d'] ∧
    commitMessage c8Cli ≠
      String.mk (substOnceAux c8Cli.version.toList c8Cli.message.toList) :=
  ⟨by rfl, by rfl, by decide⟩

/-- C8 (amended): `commit_changes` stages everything and commits with the
template in which EVERY (leftmost, non-overlapping) occurrence of the
placeholder is substituted by the requested version; for templates holding
at most one placeholder this coincides with the single, first-match
substitution the claim describes, so the message is determined as claimed. -/
theorem c8_commit_message_substitution (args : Cli) (st : ToolState) :
    commitChanges args st =
      ⟨st.fs, st.updatedFiles, st.trace ++ [.addAll, .commit (commitMessage args)]⟩ ∧
    commitMessage args = String.mk (substAllAux args.version.toList args.message.toList) ∧
    (countPlaceholders args.message.toList ≤ 1 →
      commitMessage args =
        String.mk (substOnceAux args.version.toList args.message.toList)) := by
  refine ⟨by simp [commitChanges, ToolState.emit], rfl, fun h => ?_⟩
  unfold commitMessage
  rw [substAllAux_eq_substOnceAux _ _ h]

theorem c8_witness :
    commitChanges demoCli ⟨[], [], []⟩ = ⟨[], [], [.addAll, .commit "Release"]⟩ ∧
    commitMessage demoCli =
      String.mk (substOnceAux demoCli.version.toList demoCli.message.toList) :=
  ⟨(c8_commit_message_substitution demoCli ⟨[], [], []⟩).1,
   (c8_commit_message_substitution demoCli ⟨[], [], []⟩).2.2 (by decide)⟩

/-! ## C4 -/

theorem updateSingleCrate_state_trace (args : Cli) (p : String) (st : ToolState) :
    ((updateSingleCrate args p st).state).trace = st.trace := by
  unfold updateSingleCrate
  repeat' split
  all_goals rfl

theorem updateRootWorkspaceVersion_state_trace (args : Cli) (st : ToolState) :
    ((updateRootWorkspaceVersion args st).state).trace = st.trace := by
  unfold updateRootWorkspaceVersion
  repeat' split
  all_goals rfl

theorem updateTauriAt_state_trace (args : Cli) (path : String) (st : ToolState)
    (r : RunResult) (h : updateTauriAt args path st = some r) :
    (r.state).trace = st.trace := by
  unfold updateTauriAt at h
  split at h
  · cases h
  · cases h
    split
    · rfl
    · rfl

theorem updateTauriConfig_state_trace (args : Cli) (st : ToolState) :
    ((updateTauriConfig args st).state).trace = st.trace := by
  unfold updateTauriConfig
  cases h1 : updateTauriAt args "tauri.conf.json" st with
  | some r => exact updateTauriAt_state_trace args _ st r h1
  | none =>
    cases h2 : updateTauriAt args "src-tauri/tauri.conf.json" st with
    | some r => exact updateTauriAt_state_trace args _ st r h2
    | none => rfl

theorem updateCrates_state_trace (args : Cli) (paths : List String) :
    ∀ st : ToolState, ((updateCrates args paths st).state).trace = st.trace := by
  induction paths with
  | nil => intro st; rfl
  | cons p rest ih =>
    intro st
    have h1 := updateSingleCrate_state_trace args p st
    unfold updateCrates
    cases hr : updateSingleCrate args p st with
    | err e st' =>
      rw [hr] at h1
      exact h1
    | ok st' =>
      rw [hr] at h1
      exact (ih st').trans h1

theorem updateWorkspaceVersions_state_trace (args : Cli) (st : ToolState) :
    ((updateWorkspaceVersions args st).state).trace = st.trace := by
  have h1 := updateRootWorkspaceVersion_state_trace args st
  unfold updateWorkspaceVersions
  cases hr : updateRootWorkspaceVersion args st with
  | err e st' =>
    rw [hr] at h1
    exact h1
  | ok st' =>
    rw [hr] at h1
    exact (updateCrates_state_trace args (findAllCargoToml st'.fs) st').trans h1

theorem updateVersions_state_trace (args : Cli) (st : ToolState) :
    ((updateVersions args st).state).trace = st.trace := by
  unfold updateVersions
  split
  · rfl
  · split
    · rfl
    · rename_i doc hdoc cargo hcargo
      cases hws : cargo.workspace with
      | some w =>
        have h1 := updateWorkspaceVersions_state_trace args st
        cases hr : updateWorkspaceVersions args st with
        | err e s =>
          rw [hr] at h1
          exact h1
        | ok s =>
          rw [hr] at h1
          exact (updateTauriConfig_state_trace args s).trans h1
      | none =>
        have h1 := updateSingleCrate_state_trace args "Cargo.toml" st
        cases hr : updateSingleCrate args "Cargo.toml" st with
        | err e s =>
          rw [hr] at h1
          exact h1
        | ok s =>
          rw [hr] at h1
          exact (updateTauriConfig_state_trace args s).trans h1

theorem updateVersions_ok_trace (args : Cli) (st st' : ToolState)
    (h : updateVersions args st = .ok st') : st'.trace = st.trace := by
  have h1 := updateVersions_state_trace args st
  rw [h] at h1
  exact h1

/-- C4: in dry-run mode, a successful run performs only the two read-only
queries (`git rev-parse`, `git status --porcelain`) — no add, commit,
tag creation/deletion or push — and its final state is exactly the output
of the version-rewriting stage: the updated-files list is produced and the
version edits are already applied to the file system when the run stops. -/
theorem c4_dry_run_no_git_mutation (args : Cli) (env : GitEnv) (fs : FS) (st' : ToolState)
    (hd : args.dryRun = true)
    (h : run args env fs = .ok st') :
    (∀ c ∈ st'.trace, c.isMutation = false) ∧
    updateVersions args ⟨fs, [], [.revParseInsideWorkTree, .statusPorcelain]⟩ = .ok st' := by
  simp only [run, checkGitRepo, isWorkingTreeClean, ToolState.emit, List.cons_append,
    List.nil_append, List.append_nil] at h
  cases hv : versionGate args with
  | error e => rw [hv] at h; cases h
  | ok u =>
    rw [hv] at h
    cases hw : env.insideWorkTree with
    | false => rw [hw] at h; simp at h
    | true =>
      rw [hw] at h
      simp only [if_true] at h
      cases hs : env.statusOutput.isEmpty with
      | false => rw [hs] at h; simp at h
      | true =>
        rw [hs] at h
        simp only [if_true] at h
        cases hu : updateVersions args
            ⟨fs, [], [GitCmd.revParseInsideWorkTree] ++ [GitCmd.statusPorcelain]⟩ with
        | err e st'' => rw [hu] at h; cases h
        | ok st'' =>
          rw [hu] at h
          rw [hd] at h
          have h' : RunResult.ok st'' = RunResult.ok st' := h
          cases h'
          refine ⟨?_, hu⟩
          have ht := updateVersions_ok_trace args _ _ hu
          rw [ht]
          intro c hc
          simp only [List.cons_append, List.nil_append, List.mem_cons,
            List.not_mem_nil, or_false] at hc
          rcases hc with hc | hc <;> rw [hc] <;> rfl

theorem c4_witness :
    (∀ c ∈ [GitCmd.revParseInsideWorkTree, GitCmd.statusPorcelain], c.isMutation = false) ∧
    run { demoCli with dryRun := true } cleanEnv [("Cargo.toml", demoPkgDoc)] =
      .ok ((updateVersions { demoCli with dryRun := true }
        ⟨[("Cargo.toml", demoPkgDoc)], [], [.revParseInsideWorkTree, .statusPorcelain]⟩).state) := by
  have hrun : run { demoCli with dryRun := true } cleanEnv [("Cargo.toml", demoPkgDoc)] =
      .ok ((updateVersions { demoCli with dryRun := true }
        ⟨[("Cargo.toml", demoPkgDoc)], [], [.revParseInsideWorkTree, .statusPorcelain]⟩).state) := by
    rfl
  refine ⟨?_, hrun⟩
  have := (c4_dry_run_no_git_mutation { demoCli with dryRun := true } cleanEnv
      [("Cargo.toml", demoPkgDoc)] _ rfl hrun).1
  intro c hc
  apply this
  have ht : ((updateVersions { demoCli with dryRun := true }
      ⟨[("Cargo.toml", demoPkgDoc)], [], [.revParseInsideWorkTree, .statusPorcelain]⟩).state).trace
      = [GitCmd.revParseInsideWorkTree, GitCmd.statusPorcelain] := by rfl
  rw [ht]
  exact hc

/-! ## C9 -/

theorem updateSingleCrate_err_not_dirty (args : Cli) (p : String) (st : ToolState)
    {e : Err} {st' : ToolState} (h : updateSingleCrate args p st = .err e st') :
    e ≠ .dirtyWorkingTree := by
  unfold updateSingleCrate at h
  repeat' split at h
  all_goals (cases h <;> simp)

theorem updateRootWorkspaceVersion_err_not_dirty (args : Cli) (st : ToolState)
    {e : Err} {st' : ToolState} (h : updateRootWorkspaceVersion args st = .err e st') :
    e ≠ .dirtyWorkingTree := by
  unfold updateRootWorkspaceVersion at h
  repeat' split at h
  all_goals (cases h <;> simp)

theorem updateTauriAt_err_not_dirty (args : Cli) (path : String) (st : ToolState)
    {e : Err} {st' : ToolState} (h : updateTauriAt args path st = some (.err e st')) :
    e ≠ .dirtyWorkingTree := by
  unfold updateTauriAt at h
  repeat' split at h
  all_goals (cases h <;> simp)

theorem updateTauriConfig_err_not_dirty (args : Cli) (st : ToolState)
    {e : Err} {st' : ToolState} (h : updateTauriConfig args st = .err e st') :
    e ≠ .dirtyWorkingTree := by
  unfold updateTauriConfig at h
  cases h1 : updateTauriAt args "tauri.conf.json" st with
  | some r =>
    rw [h1] at h
    have h' : r = RunResult.err e st' := h
    exact updateTauriAt_err_not_dirty args _ st (h' ▸ h1)
  | none =>
    rw [h1] at h
    cases h2 : updateTauriAt args "src-tauri/tauri.conf.json" st with
    | some r =>
      rw [h2] at h
      have h' : r = RunResult.err e st' := h
      exact updateTauriAt_err_not_dirty args _ st (h' ▸ h2)
    | none =>
      rw [h2] at h
      have h' : RunResult.ok st = RunResult.err e st' := h
      cases h'

theorem updateCrates_err_not_dirty (args : Cli) (paths : List String) :
    ∀ (st : ToolState) {e : Err} {st' : ToolState},
      updateCrates args paths st = .err e st' → e ≠ .dirtyWorkingTree := by
  induction paths with
  | nil =>
    intro st e st' h
    have h' : RunResult.ok st = RunResult.err e st' := h
    cases h'
  | cons p rest ih =>
    intro st e st' h
    unfold updateCrates at h
    cases hr : updateSingleCrate args p st with
    | err e1 s1 =>
      rw [hr] at h
      have h' : RunResult.err e1 s1 = RunResult.err e st' := h
      cases h'
      exact updateSingleCrate_err_not_dirty args p st hr
    | ok s1 =>
      rw [hr] at h
      have h' : updateCrates args rest s1 = RunResult.err e st' := h
      exact ih s1 h'

theorem updateWorkspaceVersions_err_not_dirty (args : Cli) (st : ToolState)
    {e : Err} {st' : ToolState} (h : updateWorkspaceVersions args st = .err e st') :
    e ≠ .dirtyWorkingTree := by
  unfold updateWorkspaceVersions at h
  cases hr : updateRootWorkspaceVersion args st with
  | err e1 s1 =>
    rw [hr] at h
    have h' : RunResult.err e1 s1 = RunResult.err e st' := h
    cases h'
    exact updateRootWorkspaceVersion_err_not_dirty args st hr
  | ok s1 =>
    rw [hr] at h
    have h' : updateCrates args (findAllCargoToml s1.fs) s1 = RunResult.err e st' := h
    exact updateCrates_err_not_dirty args _ s1 h'

theorem updateVersions_err_not_dirty (args : Cli) (st : ToolState)
    {e : Err} {st' : ToolState} (h : updateVersions args st = .err e st') :
    e ≠ .dirtyWorkingTree := by
  unfold updateVersions at h
  cases hread : st.fs.read "Cargo.toml" with
  | none =>
    simp only [hread] at h
    have h' : RunResult.err Err.noManifestFound st = RunResult.err e st' := h
    cases h'
    simp
  | some doc =>
    simp only [hread] at h
    cases hp : CargoToml.fromToml doc with
    | error msg =>
      simp only [hp] at h
      have h' : RunResult.err (Err.parseFailure msg) st = RunResult.err e st' := h
      cases h'
      simp
    | ok cargo =>
      simp only [hp] at h
      cases hws : cargo.workspace with
      | some w =>
        simp only [hws, Option.isSome_some, eq_self_iff_true, if_true] at h
        cases hu : updateWorkspaceVersions args st with
        | err e1 s1 =>
          rw [hu] at h
          have h' : RunResult.err e1 s1 = RunResult.err e st' := h
          cases h'
          exact updateWorkspaceVersions_err_not_dirty args st hu
        | ok s1 =>
          rw [hu] at h
          have h' : updateTauriConfig args s1 = RunResult.err e st' := h
          exact updateTauriConfig_err_not_dirty args s1 h'
      | none =>
        simp only [hws, Option.isSome_none, Bool.false_eq_true, if_false] at h
        cases hu : updateSingleCrate args "Cargo.toml" st with
        | err e1 s1 =>
          rw [hu] at h
          have h' : RunResult.err e1 s1 = RunResult.err e st' := h
          cases h'
          exact updateSingleCrate_err_not_dirty args _ st hu
        | ok s1 =>
          rw [hu] at h
          have h' : updateTauriConfig args s1 = RunResult.err e st' := h
          exact updateTauriConfig_err_not_dirty args s1 h'

theorem handleTag_err_eq (args : Cli) (env : GitEnv) (st : ToolState)
    {e : Err} {st' : ToolState} (h : handleTag args env st = .err e st') :
    e = .tagAlreadyExists (args.tagPrefix ++ args.version) := by
  simp only [handleTag] at h
  split at h
  · split at h
    · cases h
    · cases h
      rfl
  · cases h

/-- C9: given that version validation passes and the directory is a git
repository, the run fails with `DirtyWorkingTree` exactly when the
`git status --porcelain` query output is non-empty, and that failure happens
before any version rewrite: the error state still holds the original file
system and an empty updated-files list. An empty status output lets the run
proceed: no later stage can produce `DirtyWorkingTree`. -/
theorem c9_dirty_working_tree_iff (args : Cli) (env : GitEnv) (fs : FS)
    (hv : versionGate args = .ok ()) (hr : env.insideWorkTree = true) :
    (env.statusOutput ≠ "" →
      run args env fs =
        .err .dirtyWorkingTree ⟨fs, [], [.revParseInsideWorkTree, .statusPorcelain]⟩) ∧
    (env.statusOutput = "" →
      ∀ st', run args env fs ≠ .err .dirtyWorkingTree st') := by
  constructor
  · intro hne
    have hs : env.statusOutput.isEmpty = false := by
      cases hb : env.statusOutput.isEmpty
      · rfl
      · exact absurd ((String.isEmpty_iff env.statusOutput).mp hb) hne
    simp only [run, checkGitRepo, isWorkingTreeClean, ToolState.emit, List.cons_append,
      List.nil_append, List.append_nil, hv, hr, hs, Bool.false_eq_true, if_false,
      eq_self_iff_true, if_true]
  · intro hemp st' hcontra
    have hs : env.statusOutput.isEmpty = true := by rw [hemp]; rfl
    simp only [run, checkGitRepo, isWorkingTreeClean, ToolState.emit, List.cons_append,
      List.nil_append, List.append_nil, hv, hr, hs, eq_self_iff_true, if_true] at hcontra
    cases hu : updateVersions args
        ⟨fs, [], [GitCmd.revParseInsideWorkTree, GitCmd.statusPorcelain]⟩ with
    | err e1 s1 =>
      rw [hu] at hcontra
      have h' : RunResult.err e1 s1 = RunResult.err Err.dirtyWorkingTree st' := hcontra
      cases h'
      exact updateVersions_err_not_dirty args _ hu rfl
    | ok s1 =>
      simp only [hu] at hcontra
      cases hd : args.dryRun with
      | true =>
        simp only [hd, eq_self_iff_true, if_true] at hcontra
        cases hcontra
      | false =>
        simp only [hd, Bool.false_eq_true, if_false] at hcontra
        cases htag : handleTag args env (commitChanges args s1) with
        | err e2 s2 =>
          simp only [htag] at hcontra
          have h' : RunResult.err e2 s2 = RunResult.err Err.dirtyWorkingTree st' := hcontra
          cases h'
          have hne := handleTag_err_eq args env (commitChanges args s1) htag
          cases hne
        | ok s2 =>
          simp only [htag] at hcontra
          have h' : RunResult.ok (pushToRemotes env s2) =
              RunResult.err Err.dirtyWorkingTree st' := hcontra
          cases h'

/-- A repository whose working tree has pending changes. -/
def dirtyEnv : GitEnv := { cleanEnv with statusOutput := " M src/lib.rs" }

theorem c9_witness :
    run demoCli dirtyEnv [("Cargo.toml", demoPkgDoc)] =
      .err .dirtyWorkingTree
        ⟨[("Cargo.toml", demoPkgDoc)], [], [.revParseInsideWorkTree, .statusPorcelain]⟩ :=
  (c9_dirty_working_tree_iff demoCli dirtyEnv [("Cargo.toml", demoPkgDoc)]
    (by rfl) rfl).1 (by decide)

/-! ## C1 -/

theorem setPkgVersion_wf (v : String) (c : CargoToml) (h : c.WF) :
    (setPkgVersion v c).WF := by
  obtain ⟨h1, h2, h3, h4⟩ := h
  refine ⟨h1, h2, ?_, h4⟩
  intro p hp
  cases hc : c.package with
  | none => simp [setPkgVersion, hc] at hp
  | some pkg0 =>
    have hp' : some { pkg0 with version := v } = some p := by
      simpa [setPkgVersion, hc] using hp
    cases hp'
    exact h3 pkg0 hc

theorem Toml.lookupPath_nil (t : Toml) : Toml.lookupPath t [] = some t := by
  cases t <;> rfl

theorem Toml.lookupPath_table_cons (kvs : List (String × Toml)) (k : String)
    (ks : List String) :
    Toml.lookupPath (.table kvs) (k :: ks) =
      match lookupKey k kvs with
      | some v => Toml.lookupPath v ks
      | none => none := rfl

theorem lookupKey_head (k : String) (v : Toml) (rest : List (String × Toml)) :
    lookupKey k ((k, v) :: rest) = some v := by
  simp [lookupKey]

theorem lookupKey_skip (k : String) (kv : String × Toml) (rest : List (String × Toml))
    (h : kv.1 ≠ k) : lookupKey k (kv :: rest) = lookupKey k rest := by
  simp [lookupKey, h]

theorem lookupPath_setPkgVersion (c : CargoToml) (pkg : CargoPackage) (v : String)
    (hc : c.package = some pkg) :
    ∀ p : List String, ¬ p <+: ["package", "version"] → ¬ ["package", "version"] <+: p →
      Toml.lookupPath (setPkgVersion v c).toToml p = Toml.lookupPath c.toToml p := by
  intro p hp1 hp2
  cases p with
  | nil => exact absurd ⟨["package", "version"], rfl⟩ hp1
  | cons k ks =>
    simp only [setPkgVersion, CargoToml.toToml, hc, Option.map_some', optEntry,
      List.cons_append, List.nil_append]
    by_cases hk : k = "package"
    · subst hk
      cases ks with
      | nil => exact absurd ⟨["version"], rfl⟩ hp1
      | cons k2 ks2 =>
        have hk2 : k2 ≠ "version" := by
          intro he
          subst he
          exact hp2 ⟨ks2, rfl⟩
        rw [Toml.lookupPath_table_cons, Toml.lookupPath_table_cons,
            lookupKey_head, lookupKey_head]
        simp only [CargoPackage.toToml]
        rw [Toml.lookupPath_table_cons, Toml.lookupPath_table_cons]
        by_cases hk2n : k2 = "name"
        · subst hk2n
          rw [lookupKey_head, lookupKey_head]
        · rw [lookupKey_skip _ _ _ (fun he => hk2n he.symm),
              lookupKey_skip _ _ _ (fun he => hk2 he.symm),
              lookupKey_skip _ _ _ (fun he => hk2n he.symm),
              lookupKey_skip _ _ _ (fun he => hk2 he.symm)]
    · rw [Toml.lookupPath_table_cons, Toml.lookupPath_table_cons,
          lookupKey_skip _ _ _ (fun he => hk he.symm),
          lookupKey_skip _ _ _ (fun he => hk he.symm)]

/-- C1: for every manifest document that parses, `create_updated_cargo_toml`
(serialize, reparse, set `package.version`) produces exactly the parsed
value with only the package version replaced; serializing it and reparsing
round-trips; every path that is neither a prefix nor an extension of
`package.version` looks up to the same value as in the original document;
and the `package.version` path now holds the requested version. -/
theorem c1_version_rewrite_preserves_other_fields (m : Toml) (v : String) (c : CargoToml)
    (h : CargoToml.fromToml m = .ok c) :
    createUpdatedCargoToml v c = .ok (setPkgVersion v c) ∧
    CargoToml.fromToml (setPkgVersion v c).toToml = .ok (setPkgVersion v c) ∧
    (∀ p : List String, ¬ p <+: ["package", "version"] → ¬ ["package", "version"] <+: p →
      Toml.lookupPath (setPkgVersion v c).toToml p = Toml.lookupPath c.toToml p) ∧
    (∀ pkg, c.package = some pkg →
      Toml.lookupPath (setPkgVersion v c).toToml ["package", "version"] =
        some (.str v)) := by
  have hwf : c.WF := cargoToml_fromToml_wf m c h
  have hwf' : (setPkgVersion v c).WF := setPkgVersion_wf v c hwf
  refine ⟨createUpdatedCargoToml_eq v c hwf, cargoToml_fromToml_toToml _ hwf', ?_, ?_⟩
  · cases hc : c.package with
    | none =>
      have he : setPkgVersion v c = c := by
        unfold setPkgVersion
        rw [hc, Option.map_none', ← hc]
      rw [he]
      intro p _ _
      rfl
    | some pkg => exact lookupPath_setPkgVersion c pkg v hc
  · intro pkg hc
    simp [setPkgVersion, CargoToml.toToml, hc, optEntry, CargoPackage.toToml,
      Toml.lookupPath_table_cons, Toml.lookupPath_nil, lookupKey]

theorem c1_witness :
    createUpdatedCargoToml "1.2.3" demoPkgCargo = .ok (setPkgVersion "1.2.3" demoPkgCargo) ∧
    Toml.lookupPath (setPkgVersion "1.2.3" demoPkgCargo).toToml ["dependencies", "serde"] =
      Toml.lookupPath demoPkgCargo.toToml ["dependencies", "serde"] ∧
    Toml.lookupPath (setPkgVersion "1.2.3" demoPkgCargo).toToml ["package", "name"] =
      Toml.lookupPath demoPkgCargo.toToml ["package", "name"] ∧
    Toml.lookupPath (setPkgVersion "1.2.3" demoPkgCargo).toToml ["package", "version"] =
      some (.str "1.2.3") := by
  have h := c1_version_rewrite_preserves_other_fields demoPkgDoc "1.2.3" demoPkgCargo (by rfl)
  refine ⟨h.1, ?_, ?_, h.2.2.2 ⟨"demo", "0.1.0", [("edition", .str "2021")]⟩ rfl⟩
  · exact h.2.2.1 ["dependencies", "serde"]
      (fun hp => by obtain ⟨t, ht⟩ := hp; simp at ht)
      (fun hp => by obtain ⟨t, ht⟩ := hp; simp at ht)
  · exact h.2.2.1 ["package", "name"]
      (fun hp => by obtain ⟨t, ht⟩ := hp; simp at ht)
      (fun hp => by obtain ⟨t, ht⟩ := hp; simp at ht)

/-! ## C10 -/

theorem updateSingleCrate_rewrites (args : Cli) (path : String) (st : ToolState)
    (doc : Toml) (cargo : CargoToml) (pkg : CargoPackage)
    (hread : st.fs.read path = some doc)
    (hparse : CargoToml.fromToml doc = .ok cargo)
    (hpkg : cargo.package = some pkg)
    (hex : ¬(args.exclude ≠ [] ∧ pkg.name ∈ args.exclude))
    (honly : ¬(args.only ≠ [] ∧ pkg.name ∉ args.only)) :
    updateSingleCrate args path st =
      .ok ⟨st.fs.write path (setPkgVersion args.version cargo).toToml,
           st.updatedFiles ++ [path], st.trace⟩ := by
  simp only [updateSingleCrate, hread, hparse, hpkg]
  rw [if_neg hex, if_neg honly,
      createUpdatedCargoToml_eq args.version cargo (cargoToml_fromToml_wf doc cargo hparse)]
  rfl

/-- C10: in multi-package mode the recursive discovery includes the root
manifest (as `./Cargo.toml`). For a root manifest declaring both a
`workspace.package.version` and its own (unfiltered) `package` section, one
run writes the root manifest file twice — once by the workspace-version
rewrite, once by the per-crate rewrite — and the updated-files log records
it twice (as `Cargo.toml` and `./Cargo.toml`; nothing is deduplicated). -/
theorem c10_root_manifest_rewritten_twice (args : Cli) (rootDoc : Toml)
    (cargo : CargoToml) (ws : CargoWorkspace) (wsp : WorkspacePackage)
    (oldv : String) (pkg : CargoPackage)
    (hparse : CargoToml.fromToml rootDoc = .ok cargo)
    (hws : cargo.workspace = some ws)
    (hwsp : ws.package = some wsp)
    (hver : wsp.version = some oldv)
    (hpkg : cargo.package = some pkg)
    (hex : ¬(args.exclude ≠ [] ∧ pkg.name ∈ args.exclude))
    (honly : ¬(args.only ≠ [] ∧ pkg.name ∉ args.only)) :
    updateVersions args ⟨[("Cargo.toml", rootDoc)], [], []⟩ =
      .ok ⟨[("Cargo.toml", CargoToml.toToml (setPkgVersion args.version
              ⟨cargo.package, some ⟨ws.members, some ⟨some args.version, wsp.other⟩,
               ws.other⟩, cargo.other⟩))],
           ["Cargo.toml", "./Cargo.toml"], []⟩ ∧
    (["Cargo.toml", "./Cargo.toml"].countP
        (fun p => decide (normPath p = "Cargo.toml"))) = 2 := by
  have hwfN : (⟨cargo.package, some ⟨ws.members, some ⟨some args.version, wsp.other⟩,
      ws.other⟩, cargo.other⟩ : CargoToml).WF := by
    obtain ⟨h1, h2, h3, h4⟩ := cargoToml_fromToml_wf rootDoc cargo hparse
    obtain ⟨w1, w2, w3⟩ := h4 ws hws
    refine ⟨h1, h2, h3, ?_⟩
    intro w hw
    cases hw
    refine ⟨w1, w2, ?_⟩
    intro wp hwp
    cases hwp
    exact w3 wsp hwsp
  have hread1 : FS.read [("Cargo.toml", rootDoc)] "Cargo.toml" = some rootDoc := by rfl
  have hroot : updateRootWorkspaceVersion args ⟨[("Cargo.toml", rootDoc)], [], []⟩ =
      .ok ⟨[("Cargo.toml", CargoToml.toToml ⟨cargo.package,
              some ⟨ws.members, some ⟨some args.version, wsp.other⟩, ws.other⟩,
              cargo.other⟩)], ["Cargo.toml"], []⟩ := by
    simp only [updateRootWorkspaceVersion, hread1, hparse, hws, hwsp, hver]
    rfl
  have hroundN : CargoToml.fromToml (CargoToml.toToml ⟨cargo.package,
      some ⟨ws.members, some ⟨some args.version, wsp.other⟩, ws.other⟩, cargo.other⟩) =
      .ok ⟨cargo.package, some ⟨ws.members, some ⟨some args.version, wsp.other⟩,
        ws.other⟩, cargo.other⟩ :=
    cargoToml_fromToml_toToml _ hwfN
  have hsingle := updateSingleCrate_rewrites args "./Cargo.toml"
    ⟨[("Cargo.toml", CargoToml.toToml ⟨cargo.package,
        some ⟨ws.members, some ⟨some args.version, wsp.other⟩, ws.other⟩,
        cargo.other⟩)], ["Cargo.toml"], []⟩
    (CargoToml.toToml ⟨cargo.package,
        some ⟨ws.members, some ⟨some args.version, wsp.other⟩, ws.other⟩, cargo.other⟩)
    ⟨cargo.package, some ⟨ws.members, some ⟨some args.version, wsp.other⟩, ws.other⟩,
        cargo.other⟩
    pkg (by rfl) hroundN hpkg hex honly
  have hcrates : updateCrates args ["./Cargo.toml"]
      ⟨[("Cargo.toml", CargoToml.toToml ⟨cargo.package,
          some ⟨ws.members, some ⟨some args.version, wsp.other⟩, ws.other⟩,
          cargo.other⟩)], ["Cargo.toml"], []⟩ =
      .ok ⟨[("Cargo.toml", CargoToml.toToml (setPkgVersion args.version
              ⟨cargo.package, some ⟨ws.members, some ⟨some args.version, wsp.other⟩,
               ws.other⟩, cargo.other⟩))],
           ["Cargo.toml", "./Cargo.toml"], []⟩ := by
    simp only [updateCrates, hsingle]
    rfl
  have hwv : updateWorkspaceVersions args ⟨[("Cargo.toml", rootDoc)], [], []⟩ =
      .ok ⟨[("Cargo.toml", CargoToml.toToml (setPkgVersion args.version
              ⟨cargo.package, some ⟨ws.members, some ⟨some args.version, wsp.other⟩,
               ws.other⟩, cargo.other⟩))],
           ["Cargo.toml", "./Cargo.toml"], []⟩ := by
    simp only [updateWorkspaceVersions, hroot]
    exact hcrates
  refine ⟨?_, by decide⟩
  simp only [updateVersions, hread1, hparse, hws, Option.isSome_some,
    eq_self_iff_true, if_true, hwv]
  rfl

/-- Parsed form of `demoWsDoc`. -/
def demoWsCargo : CargoToml :=
  ⟨some ⟨"root", "0.1.0", []⟩, some ⟨some ["a"], some ⟨some "0.1.0", []⟩, []⟩, []⟩

theorem c10_witness :
    updateVersions demoCli ⟨[("Cargo.toml", demoWsDoc)], [], []⟩ =
      .ok ⟨[("Cargo.toml", CargoToml.toToml (setPkgVersion "1.2.3"
              ⟨some ⟨"root", "0.1.0", []⟩,
               some ⟨some ["a"], some ⟨some "1.2.3", []⟩, []⟩, []⟩))],
           ["Cargo.toml", "./Cargo.toml"], []⟩ ∧
    (["Cargo.toml", "./Cargo.toml"].countP
        (fun p => decide (normPath p = "Cargo.toml"))) = 2 :=
  c10_root_manifest_rewritten_twice demoCli demoWsDoc demoWsCargo
    ⟨some ["a"], some ⟨some "0.1.0", []⟩, []⟩ ⟨some "0.1.0", []⟩ "0.1.0"
    ⟨"root", "0.1.0", []⟩ (by rfl) rfl rfl rfl rfl (by decide) (by decide)

/-! ## C3 -/

theorem dropWhile_head_false (p : Char → Bool) :
    ∀ (l : List Char) (c : Char) (cs : List Char),
      l.dropWhile p = c :: cs → p c = false := by
  intro l
  induction l with
  | nil => intro c cs h; cases h
  | cons x xs ih =>
    intro c cs h
    rw [List.dropWhile_cons] at h
    by_cases hx : p x = true
    · rw [if_pos hx] at h
      exact ih c cs h
    · rw [if_neg hx] at h
      cases h
      exact Bool.not_eq_true _ |>.mp hx

theorem dropWhile_append_of_all (p : Char → Bool) :
    ∀ (a r : List Char), (∀ c ∈ a, p c = true) →
      (∀ c cs, r = c :: cs → p c = false) → (a ++ r).dropWhile p = r := by
  intro a
  induction a with
  | nil =>
    intro r _ hr
    cases r with
    | nil => rfl
    | cons c cs =>
      rw [List.nil_append, List.dropWhile_cons, if_neg]
      rw [hr c cs rfl]
      simp
  | cons x a' ih =>
    intro r hall hr
    rw [List.cons_append, List.dropWhile_cons, if_pos (hall x (by simp))]
    exact ih r (fun c hc => hall c (by simp [hc])) hr

theorem chomp1_some_inv (p : Char → Bool) (l r : List Char) (h : chomp1 p l = some r) :
    ∃ a, l = a ++ r ∧ a ≠ [] ∧ (∀ c ∈ a, p c = true) ∧
      (∀ c cs, r = c :: cs → p c = false) := by
  cases l with
  | nil => cases h
  | cons x xs =>
    have h' : (if p x = true then some (xs.dropWhile p) else none) = some r := h
    by_cases hx : p x = true
    · rw [if_pos hx] at h'
      cases h'
      refine ⟨x :: xs.takeWhile p, ?_, by simp, ?_, ?_⟩
      · rw [List.cons_append, List.takeWhile_append_dropWhile]
      · intro c hc
        rcases List.mem_cons.mp hc with hc | hc
        · rw [hc]; exact hx
        · exact List.mem_takeWhile_imp hc
      · exact dropWhile_head_false p xs
    · rw [if_neg hx] at h'
      cases h'

theorem chomp1_append (p : Char → Bool) (a r : List Char) (ha : a ≠ [])
    (hall : ∀ c ∈ a, p c = true) (hr : ∀ c cs, r = c :: cs → p c = false) :
    chomp1 p (a ++ r) = some r := by
  cases a with
  | nil => exact absurd rfl ha
  | cons x a' =>
    rw [List.cons_append]
    show (if p x = true then some ((a' ++ r).dropWhile p) else none) = some r
    rw [if_pos (hall x (by simp)),
        dropWhile_append_of_all p a' r (fun c hc => hall c (by simp [hc])) hr]

theorem chomp1_some_nil_iff (p : Char → Bool) (l : List Char) :
    chomp1 p l = some [] ↔ l ≠ [] ∧ ∀ c ∈ l, p c = true := by
  constructor
  · intro h
    obtain ⟨a, heq, hne, hall, _⟩ := chomp1_some_inv p l [] h
    rw [List.append_nil] at heq
    subst heq
    exact ⟨hne, hall⟩
  · rintro ⟨hne, hall⟩
    have := chomp1_append p l [] hne hall (fun c cs h => by cases h)
    simpa using this

theorem matchBuildPart_iff (cls : Char → Bool) (m : List Char) :
    matchBuildPart cls m = true ↔ OptGroup '+' cls m := by
  cases m with
  | nil => simp [matchBuildPart, OptGroup]
  | cons x xs =>
    by_cases hx : x = '+'
    · subst hx
      simp only [matchBuildPart, if_pos rfl]
      constructor
      · intro h
        cases hc : chomp1 cls xs with
        | none => rw [hc] at h; cases h
        | some r =>
          rw [hc] at h
          have hr : r = [] := by
            cases r with
            | nil => rfl
            | cons y ys => cases h
          subst hr
          have hn := (chomp1_some_nil_iff cls xs).mp hc
          exact Or.inr ⟨xs, rfl, hn.1, hn.2⟩
      · intro h
        rcases h with h | ⟨b, hb, hbne, hball⟩
        · cases h
        · have hxb : xs = b := by injection hb
          subst hxb
          rw [(chomp1_some_nil_iff cls xs).mpr ⟨hbne, hball⟩]
          rfl
    · simp only [matchBuildPart, if_neg hx]
      constructor
      · intro h; cases h
      · intro h
        rcases h with h | ⟨b, hb, _, _⟩
        · cases h
        · exact absurd (by injection hb) hx

theorem matchPrePart_iff (cls : Char → Bool) (hplus : cls '+' = false) (m : List Char) :
    matchPrePart cls m = true ↔
      ∃ pre bu, m = pre ++ bu ∧ OptGroup '-' cls pre ∧ OptGroup '+' cls bu := by
  constructor
  · intro h
    cases m with
    | nil => exact ⟨[], [], rfl, Or.inl rfl, Or.inl rfl⟩
    | cons x xs =>
      by_cases hx : x = '-'
      · subst hx
        simp only [matchPrePart, if_pos rfl] at h
        cases hc : chomp1 cls xs with
        | none => rw [hc] at h; cases h
        | some r =>
          rw [hc] at h
          obtain ⟨a, heq, hane, hall, _⟩ := chomp1_some_inv cls xs r hc
          refine ⟨'-' :: a, r, ?_, Or.inr ⟨a, rfl, hane, hall⟩,
            (matchBuildPart_iff cls r).mp h⟩
          rw [List.cons_append, ← heq]
      · simp only [matchPrePart, if_neg hx] at h
        exact ⟨[], x :: xs, rfl, Or.inl rfl, (matchBuildPart_iff cls _).mp h⟩
  · rintro ⟨pre, bu, heq, hpre, hbu⟩
    subst heq
    rcases hpre with hpre | ⟨b, hb, hbne, hball⟩
    · subst hpre
      rw [List.nil_append]
      rcases hbu with hbu | ⟨b, hb, hbne, hball⟩
      · subst hbu
        rfl
      · subst hb
        simp only [matchPrePart]
        rw [if_neg (by decide : ¬('+' : Char) = '-')]
        exact (matchBuildPart_iff cls _).mpr (Or.inr ⟨b, rfl, hbne, hball⟩)
    · subst hb
      rw [List.cons_append]
      simp only [matchPrePart, if_pos rfl]
      have hb1 : ∀ c cs, bu = c :: cs → cls c = false := by
        intro c cs hc
        rcases hbu with hbu | ⟨b2, hb2, _, _⟩
        · rw [hbu] at hc; cases hc
        · rw [hb2] at hc
          cases hc
          exact hplus
      rw [chomp1_append cls b bu hbne hball hb1]
      exact (matchBuildPart_iff cls bu).mpr hbu

theorem matchPatchOnward_eq_none (cls : Char → Bool) (l4 : List Char)
    (h : chomp1 Char.isDigit l4 = none) : matchPatchOnward cls l4 = false := by
  unfold matchPatchOnward
  rw [h]

theorem matchPatchOnward_eq_some (cls : Char → Bool) (l4 l5 : List Char)
    (h : chomp1 Char.isDigit l4 = some l5) :
    matchPatchOnward cls l4 = matchPrePart cls l5 := by
  unfold matchPatchOnward
  rw [h]

theorem matchMinorOnward_eq_none (cls : Char → Bool) (l2 : List Char)
    (h : chomp1 Char.isDigit l2 = none) : matchMinorOnward cls l2 = false := by
  unfold matchMinorOnward
  rw [h]

theorem matchMinorOnward_eq_nil (cls : Char → Bool) (l2 : List Char)
    (h : chomp1 Char.isDigit l2 = some []) : matchMinorOnward cls l2 = false := by
  unfold matchMinorOnward
  rw [h]

theorem matchMinorOnward_eq_cons (cls : Char → Bool) (l2 l4 : List Char) (c2 : Char)
    (h : chomp1 Char.isDigit l2 = some (c2 :: l4)) :
    matchMinorOnward cls l2 = if c2 = '.' then matchPatchOnward cls l4 else false := by
  unfold matchMinorOnward
  rw [h]

theorem matchVersionWith_eq_none (cls : Char → Bool) (l : List Char)
    (h : chomp1 Char.isDigit l = none) : matchVersionWith cls l = false := by
  unfold matchVersionWith
  rw [h]

theorem matchVersionWith_eq_nil (cls : Char → Bool) (l : List Char)
    (h : chomp1 Char.isDigit l = some []) : matchVersionWith cls l = false := by
  unfold matchVersionWith
  rw [h]

theorem matchVersionWith_eq_cons (cls : Char → Bool) (l l2 : List Char) (c1 : Char)
    (h : chomp1 Char.isDigit l = some (c1 :: l2)) :
    matchVersionWith cls l = if c1 = '.' then matchMinorOnward cls l2 else false := by
  unfold matchVersionWith
  rw [h]

theorem matchVersionWith_iff (cls : Char → Bool) (hplus : cls '+' = false)
    (l : List Char) :
    matchVersionWith cls l = true ↔ MatchesPattern cls l := by
  constructor
  · intro h
    cases h1 : chomp1 Char.isDigit l with
    | none => rw [matchVersionWith_eq_none cls l h1] at h; cases h
    | some l1 =>
      obtain ⟨a, heqa, hane, halla, _⟩ := chomp1_some_inv _ l l1 h1
      cases l1 with
      | nil => rw [matchVersionWith_eq_nil cls l h1] at h; cases h
      | cons c1 l2 =>
        rw [matchVersionWith_eq_cons cls l l2 c1 h1] at h
        by_cases hc1 : c1 = '.'
        · subst hc1
          rw [if_pos rfl] at h
          cases h2 : chomp1 Char.isDigit l2 with
          | none => rw [matchMinorOnward_eq_none cls l2 h2] at h; cases h
          | some l3 =>
            obtain ⟨b, heqb, hbne, hallb, _⟩ := chomp1_some_inv _ l2 l3 h2
            cases l3 with
            | nil => rw [matchMinorOnward_eq_nil cls l2 h2] at h; cases h
            | cons c2 l4 =>
              rw [matchMinorOnward_eq_cons cls l2 l4 c2 h2] at h
              by_cases hc2 : c2 = '.'
              · subst hc2
                rw [if_pos rfl] at h
                cases h3 : chomp1 Char.isDigit l4 with
                | none => rw [matchPatchOnward_eq_none cls l4 h3] at h; cases h
                | some l5 =>
                  obtain ⟨c, heqc, hcne, hallc, _⟩ := chomp1_some_inv _ l4 l5 h3
                  rw [matchPatchOnward_eq_some cls l4 l5 h3] at h
                  obtain ⟨pre, bu, heqp, hpre, hbu⟩ :=
                    (matchPrePart_iff cls hplus l5).mp h
                  refine ⟨a, b, c, pre, bu, ?_, ⟨hane, halla⟩, ⟨hbne, hallb⟩,
                    ⟨hcne, hallc⟩, hpre, hbu⟩
                  rw [heqa, heqb, heqc, heqp]
              · rw [if_neg hc2] at h; cases h
        · rw [if_neg hc1] at h; cases h
  · rintro ⟨a, b, c, pre, bu, heq, ⟨hane, halla⟩, ⟨hbne, hallb⟩, ⟨hcne, hallc⟩,
      hpre, hbu⟩
    subst heq
    have hdot : Char.isDigit '.' = false := by decide
    have hpb : ∀ ch cs, pre ++ bu = ch :: cs → Char.isDigit ch = false := by
      intro ch cs hc
      rcases hpre with hp | ⟨p1, hp1, _, _⟩
      · rw [hp, List.nil_append] at hc
        rcases hbu with hb | ⟨b1, hb1, _, _⟩
        · rw [hb] at hc; cases hc
        · rw [hb1] at hc
          cases hc
          decide
      · rw [hp1, List.cons_append] at hc
        cases hc
        decide
    rw [matchVersionWith_eq_cons cls _ (b ++ '.' :: (c ++ (pre ++ bu))) '.'
        (chomp1_append _ a ('.' :: (b ++ '.' :: (c ++ (pre ++ bu)))) hane halla
          (fun ch cs hc => by cases hc; exact hdot)),
        if_pos rfl,
        matchMinorOnward_eq_cons cls _ (c ++ (pre ++ bu)) '.'
        (chomp1_append _ b ('.' :: (c ++ (pre ++ bu))) hbne hallb
          (fun ch cs hc => by cases hc; exact hdot)),
        if_pos rfl,
        matchPatchOnward_eq_some cls _ (pre ++ bu)
        (chomp1_append _ c (pre ++ bu) hcne hallc hpb)]
    exact (matchPrePart_iff cls hplus (pre ++ bu)).mpr ⟨pre, bu, rfl, hpre, hbu⟩

/-- C3 (counterexample): the claim's pattern uses the class `[\w.]`, which
contains the underscore, but the source regex suffix class `[a-zA-Z0-9.]`
does not: `1.0.0-rc_1` matches the claim's pattern yet is rejected by
`validate_version_format` when the force flag is not set. -/
theorem c3_counterexample :
    claimVersionMatches "1.0.0-rc_1" = true ∧
    validateVersionFormat ⟨"1.0.0-rc_1", false, false, "Release", "v", false, [], []⟩ =
      .error .invalidVersionFormat :=
  ⟨by rfl, by rfl⟩

/-- C3 (amended): with the force flag unset, validation succeeds exactly for
the strings matching `\d+\.\d+\.\d+(-[a-zA-Z0-9.]+)?(\+[a-zA-Z0-9.]+)?`
(ASCII digits; suffix classes without underscore), stated through the
declarative decomposition `MatchesPattern suffixChar`; with the force flag
set, no version string is rejected by format validation. -/
theorem c3_version_validation (args : Cli) :
    (args.force = false →
      (versionGate args = .ok () ↔ MatchesPattern suffixChar args.version.toList)) ∧
    (args.force = true → versionGate args = .ok ()) := by
  constructor
  · intro hf
    unfold versionGate
    rw [hf]
    simp only [Bool.false_eq_true, if_false]
    unfold validateVersionFormat versionRegexMatches
    constructor
    · intro h
      by_cases hm : matchVersionWith suffixChar args.version.toList = true
      · exact (matchVersionWith_iff suffixChar (by decide) _).mp hm
      · rw [if_neg hm] at h
        cases h
    · intro h
      rw [if_pos ((matchVersionWith_iff suffixChar (by decide) _).mpr h)]
  · intro hf
    unfold versionGate
    rw [hf]
    rfl

theorem c3_witness :
    versionGate demoCli = .ok () ∧ MatchesPattern suffixChar "1.2.3".toList := by
  have hm : MatchesPattern suffixChar "1.2.3".toList :=
    ⟨['1'], ['2'], ['3'], [], [], by decide, ⟨by decide, by decide⟩,
     ⟨by decide, by decide⟩, ⟨by decide, by decide⟩, Or.inl rfl, Or.inl rfl⟩
  exact ⟨((c3_version_validation demoCli).1 rfl).mpr hm, hm⟩

end CargoGitRelease
